import Mathlib

/-!
# Formal model of the Javari FreeCodeCamp scraper

A shallow embedding of the scraper core (`FCCScraper` in `lib/fcc-scraper.ts`)
of the `CR-AudioViz-AI/javari-fcc-scraper` repository, together with proofs
about the properties its specification states.

External effects are made explicit arguments:

* the axios fetch and the cheerio parse of one page are an
  `Except String PageDoc` value (a parsed document, or the message of any
  thrown transport / non-2xx / parse error);
* the Supabase store is a list of rows threaded through the functions, and a
  storage-write failure (caught and logged by the code) is an injected flag;
* JavaScript strings are modelled on their character lists, and JavaScript
  numbers arising from `(processed / total) * 100` are modelled as rationals.
-/

/-! ## JavaScript string primitives, modelled on character lists -/

/-- The JS regex word-character class `\w`, that is `[A-Za-z0-9_]`. -/
def isWordChar (c : Char) : Bool := c.isAlphanum || c == '_'

/-- JS `String.prototype.toLowerCase`, modelled on ASCII letters. -/
def jsToLower (s : String) : String := ⟨s.data.map Char.toLower⟩

/-- JS `String.prototype.trim`: strip whitespace from both ends. -/
def jsTrim (s : String) : String :=
  ⟨((s.data.dropWhile Char.isWhitespace).reverse.dropWhile Char.isWhitespace).reverse⟩

/-- JS `String.prototype.startsWith`. -/
def jsStartsWith (s pre : String) : Bool := pre.data.isPrefixOf s.data

/-- Helper of `strIncludes`: does `needle` occur as a contiguous run in `hay`? -/
def hasSubstr (needle : List Char) : List Char → Bool
  | [] => needle.isEmpty
  | c :: cs => needle.isPrefixOf (c :: cs) || hasSubstr needle cs

/-- JS `String.prototype.includes`. -/
def strIncludes (hay needle : String) : Bool := hasSubstr needle.data hay.data

/-- Helper of `splitRuns`: `acc` is the current fragment (reversed), `lastSep`
records whether the previous character belonged to a separator run. -/
def splitRunsAux (sep : Char → Bool) : List Char → List Char → Bool → List String
  | [], acc, _ => [⟨acc.reverse⟩]
  | c :: cs, acc, lastSep =>
    if sep c then
      if lastSep then splitRunsAux sep cs acc true
      else ⟨acc.reverse⟩ :: splitRunsAux sep cs [] true
    else splitRunsAux sep cs (c :: acc) false

/-- JS `String.prototype.split` on a one-or-more character-class regex such as
`/\W+/` or `/\s+/`: maximal runs of separator characters split the string,
with (possibly empty) fragments kept at both ends. -/
def splitRuns (sep : Char → Bool) (s : String) : List String :=
  splitRunsAux sep s.data [] false

/-- JS `String.prototype.split('/')`: split on every single `'/'`. -/
def splitSlash (s : String) : List String := (s.data.splitOn '/').map (fun l => ⟨l⟩)

/-! ## Data model (`lib/types.ts`) -/

/-- `CodeSnippet` from `lib/types.ts` (the optional description is never set
by the scraper). -/
structure CodeSnippet where
  language : String
  code : String
deriving Repr, DecidableEq

/-- `ScrapeResult` from `lib/types.ts`. -/
structure ScrapeResult where
  success : Bool
  url : String
  title : String
  content : String
  markdown : Option String
  codeSnippets : List CodeSnippet
  wordCount : Nat
  characterCount : Nat
  keywords : List String
  topics : List String
  error : Option String
deriving Repr, DecidableEq

/-- One element matched by a cheerio code query (`pre code, .code-editor`):
its text and its optional `class` attribute. -/
structure CodeElem where
  text : String
  cls : Option String
deriving Repr, DecidableEq

/-- A parsed HTML document, as seen through the cheerio queries `scrapePage`
and `htmlToMarkdown` make: the texts of the `h1` elements in document order,
the `title` text, the combined text of the content-container selector
`.challenge-instructions, .certification-desc, article, main`, the
`pre code, .code-editor` elements, the `h1, h2, h3, h4` headings as
(level, text) pairs, the paragraph texts and the `pre code` elements. -/
structure PageDoc where
  h1Texts : List String
  titleText : String
  contentText : String
  codeElems : List CodeElem
  headings : List (Nat × String)
  paragraphs : List String
  preCodeElems : List CodeElem
deriving Repr

/-! ## Content normalizer (`scrapePage` and its helpers) -/

/-- First match of the regex `/language-(\w+)/` in a class attribute: the
first position where the literal `language-` is followed by at least one word
character yields the maximal word-character run after it as group 1. -/
def findLanguageMarker : List Char → Option String
  | [] => none
  | c :: cs =>
    if ("language-".data).isPrefixOf (c :: cs)
        && isWordChar (((c :: cs).drop 9).headD ' ')
    then some ⟨((c :: cs).drop 9).takeWhile isWordChar⟩
    else findLanguageMarker cs

/-- `$(elem).attr('class')?.match(/language-(\w+)/)?.[1] || 'javascript'`:
the language tag of a code element, defaulting to `javascript` when the
class attribute is absent or carries no `language-` marker. -/
def snippetLanguage (cls : Option String) : String :=
  match cls with
  | none => "javascript"
  | some c => (findLanguageMarker c.data).getD "javascript"

/-- The body of the code-snippet collection loop of `scrapePage`:
`code` is the element's trimmed text and the snippet is kept under
`if (code && code.length > 10)`. -/
def snippetStep (acc : List CodeSnippet) (e : CodeElem) : List CodeSnippet :=
  let code := jsTrim e.text
  let language := snippetLanguage e.cls
  if code ≠ "" ∧ 10 < code.length then acc ++ [⟨language, code⟩] else acc

/-- The code-snippet collection loop of `scrapePage` over the elements the
selector `pre code, .code-editor` matches. -/
def extractSnippets (elems : List CodeElem) : List CodeSnippet :=
  elems.foldl snippetStep []

/-- One step of the frequency-record construction in `extractKeywords`:
`frequency[word] = (frequency[word] || 0) + 1`. An existing key is bumped in
place, a new key is appended. The record is modelled as the insertion-ordered
map that its TypeScript type `Record<string, number>` denotes; the degenerate
interaction of the two tokens `__proto__` and `constructor` with the object
prototype chain of a plain JS object is not modelled. -/
def bumpFreq (m : List (String × Nat)) (w : String) : List (String × Nat) :=
  if m.any (fun e => e.1 == w) then
    m.map (fun e => if e.1 == w then (e.1, e.2 + 1) else e)
  else m ++ [(w, 1)]

/-- The word-frequency record of `extractKeywords`. -/
def freqMap (ws : List String) : List (String × Nat) := ws.foldl bumpFreq []

/-- The numeric value of a digit string. -/
def digitsToNat (l : List Char) : Nat := l.foldl (fun a c => 10 * a + (c.toNat - 48)) 0

/-- Whether a property key is an ECMAScript array index: a canonical decimal
string (no leading zero except `"0"` itself) whose value is below 2^32 - 1.
`Object.entries` enumerates such keys first, in ascending numeric order,
before the remaining string keys in insertion order. -/
def isArrayIndexKey (s : String) : Bool :=
  !s.data.isEmpty && s.data.all Char.isDigit
    && (s == "0" || s.data.headD '0' != '0')
    && digitsToNat s.data < 4294967295

/-- Insert into a list sorted by the boolean-valued relation `le`, before the
first element it relates to; with a total `le` this is a stable insertion. -/
def insertSorted {α : Type} (le : α → α → Bool) (x : α) : List α → List α
  | [] => [x]
  | y :: ys => if le x y then x :: y :: ys else y :: insertSorted le x ys

/-- Stable insertion sort by the boolean-valued relation `le`; this is the
output every ECMAScript-conformant (stable, since ES2019) `Array.prototype.sort`
produces for a consistent comparator. -/
def sortStable {α : Type} (le : α → α → Bool) (l : List α) : List α :=
  l.foldr (insertSorted le) []

/-- The comparator `(a, b) => b[1] - a[1]` of `extractKeywords`: descending by
count, ties left in place. -/
def countDescLe (a b : String × Nat) : Bool := b.2 ≤ a.2

/-- Ascending numeric order on array-index keys. -/
def indexAscLe (a b : String × Nat) : Bool := digitsToNat a.1.data ≤ digitsToNat b.1.data

/-- `Object.entries(frequency)`: ECMAScript own-property enumeration order —
array-index keys first in ascending numeric order, then the remaining string
keys in insertion order. -/
def jsEntries (m : List (String × Nat)) : List (String × Nat) :=
  sortStable indexAscLe (m.filter (fun e => isArrayIndexKey e.1))
    ++ m.filter (fun e => !isArrayIndexKey e.1)

/-- The token list of `extractKeywords`:
`content.toLowerCase().split(/\W+/).filter((word) => word.length > 3)`. -/
def keywordTokens (content : String) : List String :=
  (splitRuns (fun c => !isWordChar c) (jsToLower content)).filter
    (fun w => 3 < w.length)

/-- `extractKeywords` from `lib/fcc-scraper.ts`: token frequencies, sorted by
descending count with the stable sort over `Object.entries` order, first 10,
keys only. -/
def extractKeywords (content : String) : List String :=
  ((sortStable countDescLe (jsEntries (freqMap (keywordTokens content)))).take 10).map
    Prod.fst

/-- The topics computation of `scrapePage`:
`url.split('/').filter((p) => p && p !== 'learn')`. -/
def topicsOf (url : String) : List String :=
  (splitSlash url).filter (fun p => p != "" && p != "learn")

/-- The word count of `scrapePage`:
`content.split(/\s+/).filter(Boolean).length`. -/
def wordCountOf (content : String) : Nat :=
  ((splitRuns Char.isWhitespace content).filter (fun w => w != "")).length

/-- `htmlToMarkdown` from `lib/fcc-scraper.ts`: a headings pass, then a
paragraphs pass, then a fenced-code pass, trimmed at the end. -/
def htmlToMarkdown (doc : PageDoc) : String :=
  let hs := doc.headings.foldl
    (fun md lv => md ++ ⟨List.replicate lv.1 '#'⟩ ++ " " ++ jsTrim lv.2 ++ "\n\n") ""
  let ps := doc.paragraphs.foldl (fun md p => md ++ jsTrim p ++ "\n\n") hs
  let cs := doc.preCodeElems.foldl
    (fun md e =>
      md ++ "```" ++ snippetLanguage e.cls ++ "\n" ++ jsTrim e.text ++ "\n```" ++ "\n\n")
    ps
  jsTrim cs

/-- `scrapePage` from `lib/fcc-scraper.ts`. The `fetched` argument models the
awaited axios request plus the cheerio parse: `.ok doc` is a parsed 2xx
response, `.error msg` is any thrown transport, non-2xx or extraction failure
with its message, caught by the surrounding `try/catch`. -/
def scrapePage (url : String) (fetched : Except String PageDoc) : ScrapeResult :=
  match fetched with
  | .error msg =>
    { success := false, url := url, title := "", content := "", markdown := none,
      codeSnippets := [], wordCount := 0, characterCount := 0, keywords := [],
      topics := [], error := some msg }
  | .ok doc =>
    let h1 := jsTrim (doc.h1Texts.headD "")
    let title := if h1 != "" then h1 else jsTrim doc.titleText
    let content := jsTrim doc.contentText
    { success := true, url := url, title := title, content := content,
      markdown := some (htmlToMarkdown doc),
      codeSnippets := extractSnippets doc.codeElems,
      wordCount := wordCountOf content, characterCount := content.length,
      keywords := extractKeywords content, topics := topicsOf url, error := none }

/-! ## Change detector + writer (`saveContent`) -/

/-- Modelled from the spec: the content fingerprint
`crypto.createHash('sha256').update(result.content).digest('hex')` computed
inside `saveContent`. A cryptographic hash cannot carry collision-freeness as
a theorem, so the digest is modelled the way the spec's change-detection
invariant treats it: as an ideal collision-free digest of the content string,
here its codepoint sequence. What the claims depend on — the digest reads
`result.content` and nothing else, deterministically — is preserved. -/
def sha256Hex (s : String) : List Nat := s.data.map Char.toNat

/-- `contentHash` in `saveContent`: the fingerprint digests the `content`
field only. -/
def contentHash (result : ScrapeResult) : List Nat := sha256Hex result.content

/-- One row of the `knowledge_content` table: the columns `saveContent` reads
and writes. Rows are addressed by `url`; the code looks the row up by `url`
(`.eq('url', result.url).single()`, one current row per URL) and patches that
row. -/
structure StoredRecord where
  source_id : String
  url : String
  title : String
  content : String
  content_hash : List Nat
  processed : Bool
deriving Repr, DecidableEq

/-- The row `saveContent` writes for a result. -/
def contentRow (sid : String) (result : ScrapeResult) : StoredRecord :=
  { source_id := sid, url := result.url, title := result.title,
    content := result.content, content_hash := contentHash result,
    processed := false }

/-- `saveContent` from `lib/fcc-scraper.ts`. `sourceId` is the resolved
knowledge-source id (`none` when the lookup found nothing, in which case the
code logs and returns). `writeFails` injects a failure of the Supabase
insert/update call, which the surrounding `try/catch` logs and swallows.
Returns the new store and the number of store writes performed. -/
def saveContent (sourceId : Option String) (writeFails : Bool)
    (store : List StoredRecord) (result : ScrapeResult) (category : String) :
    List StoredRecord × Nat :=
  match sourceId with
  | none => (store, 0)
  | some sid =>
    let _ := category
    let hash := contentHash result
    match store.find? (fun r => r.url == result.url) with
    | some existing =>
      if existing.content_hash = hash then (store, 0)
      else if writeFails then (store, 0)
      else (store.map (fun r => if r.url == result.url then contentRow sid result else r), 1)
    | none =>
      if writeFails then (store, 0)
      else (store ++ [contentRow sid result], 1)

/-! ## URL discoverer (`getCertificationPages`) -/

/-- The base origin `https://www.freecodecamp.org`. -/
def FCC_BASE : String := "https://www.freecodecamp.org"

/-- The `fullUrl` computation in `getCertificationPages`:
`href.startsWith('http') ? href : FCC_BASE + href`. -/
def expandHref (href : String) : String :=
  if jsStartsWith href "http" then href else FCC_BASE ++ href

/-- The accumulation step of the `...each` loop in `getCertificationPages`. -/
def collectUrl (urls : List String) (href : String) : List String :=
  if strIncludes href "/learn/" then
    let fullUrl := expandHref href
    if urls.contains fullUrl then urls else urls ++ [fullUrl]
  else urls

/-- `getCertificationPages` from `lib/fcc-scraper.ts`. `fetched` models the
awaited fetch plus parse: `some anchors` carries the `href` attributes, in
document order, of the elements the selector `a[href^="/learn/"]` matches;
`none` models any thrown fetch or parse error, caught by the `try/catch`. -/
def getCertificationPages (certUrl : String) (fetched : Option (List String)) :
    List String :=
  match fetched with
  | none => [certUrl]
  | some anchors =>
    let hrefs := anchors.filter (fun h => jsStartsWith h "/learn/")
    (hrefs.foldl collectUrl [certUrl]).take 50

/-! ## Batch scheduler (`scrapeCertification`) -/

/-- The fields of one `updateJob` progress write inside the per-result loop of
`scrapeCertification`. -/
structure JobUpdate where
  urls_processed : Nat
  urls_failed : Nat
  progress_percentage : ℚ
  items_scraped : Nat
deriving Repr, DecidableEq

/-- The summary `scrapeCertification` returns. -/
structure ScrapeSummary where
  success : Nat
  failed : Nat
  total : Nat
deriving Repr, DecidableEq

/-- The per-result loop of `scrapeCertification`, processing the scrape
results in URL order: the batching of width `concurrency` only parallelises
the fetches; the `for (const result of results)` counter-and-update loop runs
sequentially inside each batch and the batches are sequential, so the
flattened update sequence is the URL order. Each item carries its
`ScrapeResult` and whether the storage write for it would fail. Returns the
emitted job updates, the final store and the final success/failed counters. -/
def runItems (sourceId : Option String) (cat : String) (total : Nat) :
    Nat → Nat → List StoredRecord → List (ScrapeResult × Bool) →
    List JobUpdate × List StoredRecord × Nat × Nat
  | s, f, store, [] => ([], store, s, f)
  | s, f, store, (result, wf) :: rest =>
    let store1 := if result.success then (saveContent sourceId wf store result cat).1 else store
    let s1 := if result.success then s + 1 else s
    let f1 := if result.success then f else f + 1
    let processed := s1 + f1
    let update : JobUpdate :=
      { urls_processed := processed, urls_failed := f1,
        progress_percentage := ((processed : ℚ) / (total : ℚ)) * 100,
        items_scraped := s1 }
    let rec1 := runItems sourceId cat total s1 f1 store1 rest
    (update :: rec1.1, rec1.2)

/-- `scrapeCertification` from `lib/fcc-scraper.ts`, from the point where the
discovered URL list is fixed: `items` pairs each discovered URL's scrape
result with its injected storage-write outcome; `total = items.length` is the
`total_urls` recorded on the job. Returns the job updates, the final store and
the summary. -/
def scrapeCertification (sourceId : Option String) (cat : String)
    (items : List (ScrapeResult × Bool)) (store : List StoredRecord) :
    List JobUpdate × List StoredRecord × ScrapeSummary :=
  let total := items.length
  let r := runItems sourceId cat total 0 0 store items
  (r.1, r.2.1, { success := r.2.2.1, failed := r.2.2.2, total := total })

/-! ## General helper lemmas -/

theorem head?_append_left {α : Type} (l1 l2 : List α) (h : l1 ≠ []) :
    (l1 ++ l2).head? = l1.head? := by
  cases l1 with
  | nil => exact absurd rfl h
  | cons a t => rfl

theorem head?_take_pos {α : Type} (l : List α) (n : Nat) (h : 0 < n) :
    (l.take n).head? = l.head? := by
  cases l with
  | nil => simp
  | cons a t =>
    cases n with
    | zero => exact absurd h (by omega)
    | succ m => rfl

theorem string_ne_empty_of_length_pos {s : String} (h : 0 < s.length) : s ≠ "" := by
  intro he
  subst he
  exact absurd h (by decide)

/-! ## C1: the content fingerprint -/

theorem sha256Hex_injective : Function.Injective sha256Hex := by
  intro s t h
  apply String.ext
  have h2 := congrArg (List.map Char.ofNat) h
  simpa [sha256Hex, List.map_map, Function.comp_def, Char.ofNat_toNat] using h2

/-- C1: the content fingerprint computed inside `saveContent` is deterministic
and is a digest of the `content` field only: two results have equal
fingerprints iff their `content` fields are equal, and changing only the
title or any other metadata field never changes the fingerprint. -/
theorem contentHash_content_only :
    (∀ r : ScrapeResult, contentHash r = contentHash r) ∧
    (∀ r1 r2 : ScrapeResult,
      contentHash r1 = contentHash r2 ↔ r1.content = r2.content) ∧
    (∀ (r : ScrapeResult) (su : Bool) (u t : String) (md : Option String)
        (cs : List CodeSnippet) (wc cc : Nat) (kw tp : List String)
        (er : Option String),
      contentHash { r with
        success := su, url := u, title := t, markdown := md,
        codeSnippets := cs, wordCount := wc, characterCount := cc,
        keywords := kw, topics := tp, error := er } = contentHash r) := by
  refine ⟨fun r => rfl, fun r1 r2 => ⟨fun h => sha256Hex_injective h, fun h => ?_⟩,
    fun _ _ _ _ _ _ _ _ _ _ _ => rfl⟩
  show sha256Hex r1.content = sha256Hex r2.content
  rw [h]

/-! ## C7: scrapePage failure values -/

/-- C7: `scrapePage` never throws across its boundary: any transport failure,
non-2xx response or extraction exception is returned as a well-formed failure
value with `success` false, carrying the input URL and the error message,
with both numeric fields zero and all sequence fields empty; moreover the
returned value always carries the input URL. -/
theorem scrapePage_failure_wellformed :
    (∀ url msg : String,
      scrapePage url (Except.error msg) =
        { success := false, url := url, title := "", content := "",
          markdown := none, codeSnippets := [], wordCount := 0,
          characterCount := 0, keywords := [], topics := [],
          error := some msg }) ∧
    (∀ (url : String) (fetched : Except String PageDoc),
      (scrapePage url fetched).url = url) ∧
    (∀ (url : String) (fetched : Except String PageDoc),
      (scrapePage url fetched).success = false →
        (scrapePage url fetched).wordCount = 0 ∧
        (scrapePage url fetched).characterCount = 0 ∧
        (scrapePage url fetched).codeSnippets = [] ∧
        (scrapePage url fetched).keywords = [] ∧
        (scrapePage url fetched).topics = [] ∧
        ∃ msg, (scrapePage url fetched).error = some msg) := by
  refine ⟨fun url msg => rfl, fun url fetched => ?_, fun url fetched h => ?_⟩
  · cases fetched <;> rfl
  · cases fetched with
    | error msg => exact ⟨rfl, rfl, rfl, rfl, rfl, msg, rfl⟩
    | ok doc => simp [scrapePage] at h

theorem scrapePage_failure_wellformed_witness :
    (scrapePage "https://x" (Except.error "timeout of 30000ms exceeded")).wordCount = 0 ∧
    (scrapePage "https://x" (Except.error "timeout of 30000ms exceeded")).characterCount = 0 ∧
    (scrapePage "https://x" (Except.error "timeout of 30000ms exceeded")).codeSnippets = [] ∧
    (scrapePage "https://x" (Except.error "timeout of 30000ms exceeded")).keywords = [] ∧
    (scrapePage "https://x" (Except.error "timeout of 30000ms exceeded")).topics = [] ∧
    ∃ msg, (scrapePage "https://x" (Except.error "timeout of 30000ms exceeded")).error = some msg :=
  scrapePage_failure_wellformed.2.2 "https://x" (Except.error "timeout of 30000ms exceeded") rfl

/-! ## C5: code-snippet collection (corrected) -/

/-- The per-element snippet decision `extractSnippets` is proved equal to:
keep exactly the elements whose trimmed text is longer than 10 characters. -/
def snippetOf (e : CodeElem) : Option CodeSnippet :=
  if 10 < (jsTrim e.text).length then
    some ⟨snippetLanguage e.cls, jsTrim e.text⟩
  else none

theorem snippetStep_foldl : ∀ (elems : List CodeElem) (acc : List CodeSnippet),
    elems.foldl snippetStep acc = acc ++ elems.filterMap snippetOf := by
  intro elems
  induction elems with
  | nil => intro acc; simp
  | cons e t ih =>
    intro acc
    rw [List.foldl_cons, ih]
    by_cases h10 : 10 < (jsTrim e.text).length
    · have hne : jsTrim e.text ≠ "" := string_ne_empty_of_length_pos (by omega)
      simp [snippetStep, snippetOf, h10, hne]
    · simp [snippetStep, snippetOf, h10]

/-- C5 counterexample: a snippet whose trimmed text has exactly 10 characters
is discarded by `if (code && code.length > 10)`, though the claim says every
snippet of length 10 or more is retained. -/
theorem extractSnippets_length10_counterexample :
    ("0123456789" : String).length = 10 ∧
    jsTrim "0123456789" = "0123456789" ∧
    extractSnippets [⟨"0123456789", some "language-python"⟩] = [] :=
  ⟨by decide, by decide, by decide⟩

/-- C5 (amended): `scrapePage` collects one code snippet per code-block
element whose trimmed text is longer than 10 characters — snippets of length
at most 10 are discarded and every snippet of length 11 or more is retained —
with the language parsed from a `language-<name>` class marker and defaulting
to `"javascript"` when the marker is absent. -/
theorem extractSnippets_spec (elems : List CodeElem) :
    extractSnippets elems = elems.filterMap snippetOf ∧
    (∀ s ∈ extractSnippets elems, 10 < s.code.length) ∧
    (∀ e ∈ elems, 10 < (jsTrim e.text).length →
      (⟨snippetLanguage e.cls, jsTrim e.text⟩ : CodeSnippet) ∈ extractSnippets elems) ∧
    snippetLanguage none = "javascript" := by
  have hmain : extractSnippets elems = elems.filterMap snippetOf :=
    snippetStep_foldl elems []
  refine ⟨hmain, ?_, ?_, rfl⟩
  · intro s hs
    rw [hmain] at hs
    obtain ⟨e, _, he⟩ := List.mem_filterMap.mp hs
    unfold snippetOf at he
    by_cases h10 : 10 < (jsTrim e.text).length
    · simp only [h10, if_pos] at he
      cases he
      exact h10
    · simp [h10] at he
  · intro e he h10
    rw [hmain]
    refine List.mem_filterMap.mpr ⟨e, he, ?_⟩
    simp [snippetOf, h10]

theorem extractSnippets_spec_witness :
    (⟨snippetLanguage (some "language-python"), jsTrim " 0123456789x "⟩ : CodeSnippet) ∈
      extractSnippets [⟨" 0123456789x ", some "language-python"⟩] :=
  (extractSnippets_spec [⟨" 0123456789x ", some "language-python"⟩]).2.2.1
    ⟨" 0123456789x ", some "language-python"⟩ (by decide) (by decide)

/-! ## C3: URL discovery -/

theorem getCertificationPages_some (certUrl : String) (ls : List String) :
    getCertificationPages certUrl (some ls) =
      ((ls.filter (fun h => jsStartsWith h "/learn/")).foldl collectUrl [certUrl]).take 50 := rfl

theorem collectUrl_cases (urls : List String) (href : String) :
    collectUrl urls href = urls ∨
    ∃ fullUrl, fullUrl = expandHref href ∧ fullUrl ∉ urls ∧
      collectUrl urls href = urls ++ [fullUrl] := by
  unfold collectUrl
  by_cases h1 : strIncludes href "/learn/"
  · by_cases h2 : expandHref href ∈ urls
    · exact Or.inl (by simp [h1, h2])
    · exact Or.inr ⟨expandHref href, rfl, h2, by simp [h1, h2]⟩
  · exact Or.inl (by simp [h1])

theorem collectUrl_foldl_head : ∀ (hrefs acc : List String), acc ≠ [] →
    (hrefs.foldl collectUrl acc).head? = acc.head? ∧ hrefs.foldl collectUrl acc ≠ [] := by
  intro hrefs
  induction hrefs with
  | nil => intro acc h; exact ⟨rfl, h⟩
  | cons href t ih =>
    intro acc h
    rw [List.foldl_cons]
    rcases collectUrl_cases acc href with hc | ⟨fullUrl, _, _, hc⟩
    · rw [hc]; exact ih acc h
    · rw [hc]
      have hne : acc ++ [fullUrl] ≠ [] := by simp
      obtain ⟨h1, h2⟩ := ih (acc ++ [fullUrl]) hne
      exact ⟨h1.trans (head?_append_left acc [fullUrl] h), h2⟩

theorem collectUrl_foldl_nodup : ∀ (hrefs acc : List String), acc.Nodup →
    (hrefs.foldl collectUrl acc).Nodup := by
  intro hrefs
  induction hrefs with
  | nil => intro acc h; exact h
  | cons href t ih =>
    intro acc h
    rw [List.foldl_cons]
    rcases collectUrl_cases acc href with hc | ⟨fullUrl, _, hnotin, hc⟩
    · rw [hc]; exact ih acc h
    · rw [hc]
      refine ih (acc ++ [fullUrl]) ?_
      rw [List.nodup_append]
      refine ⟨h, List.nodup_singleton fullUrl, ?_⟩
      intro x hx hx'
      rw [List.mem_singleton] at hx'
      subst hx'
      exact hnotin hx

theorem collectUrl_foldl_sublist : ∀ (hrefs acc : List String),
    ∃ ex, hrefs.foldl collectUrl acc = acc ++ ex ∧ ex.Sublist (hrefs.map expandHref) := by
  intro hrefs
  induction hrefs with
  | nil => intro acc; exact ⟨[], by simp, by simp⟩
  | cons href t ih =>
    intro acc
    rw [List.foldl_cons]
    rcases collectUrl_cases acc href with hc | ⟨fullUrl, hfull, _, hc⟩
    · rw [hc]
      obtain ⟨ex, he, hs⟩ := ih acc
      exact ⟨ex, he, hs.cons (expandHref href)⟩
    · rw [hc]
      obtain ⟨ex, he, hs⟩ := ih (acc ++ [fullUrl])
      refine ⟨fullUrl :: ex, by rw [he, List.append_assoc]; rfl, ?_⟩
      rw [List.map_cons, ← hfull]
      exact hs.cons₂ fullUrl

/-- C3: `getCertificationPages` returns at most 50 URLs, always with the root
URL as its first element, with duplicates removed preserving first-seen order
(the result is a duplicate-free sublist of the root URL followed by the
expanded matching hrefs in document order), and on any fetch or parse failure
it returns exactly the one-element list containing only the root URL. -/
theorem getCertificationPages_spec (certUrl : String)
    (fetched : Option (List String)) (anchors : List String) :
    (getCertificationPages certUrl fetched).length ≤ 50 ∧
    (getCertificationPages certUrl fetched).head? = some certUrl ∧
    (getCertificationPages certUrl fetched).Nodup ∧
    getCertificationPages certUrl none = [certUrl] ∧
    (getCertificationPages certUrl (some anchors)).Sublist
      (certUrl :: (anchors.filter (fun h => jsStartsWith h "/learn/")).map expandHref) := by
  have hsome : ∀ ls : List String,
      (getCertificationPages certUrl (some ls)).length ≤ 50 ∧
      (getCertificationPages certUrl (some ls)).head? = some certUrl ∧
      (getCertificationPages certUrl (some ls)).Nodup ∧
      (getCertificationPages certUrl (some ls)).Sublist
        (certUrl :: (ls.filter (fun h => jsStartsWith h "/learn/")).map expandHref) := by
    intro ls
    rw [getCertificationPages_some]
    set hrefs := ls.filter (fun h => jsStartsWith h "/learn/") with hh
    obtain ⟨hhead, hne⟩ := collectUrl_foldl_head hrefs [certUrl] (by simp)
    refine ⟨?_, ?_, ?_, ?_⟩
    · rw [List.length_take]
      omega
    · rw [head?_take_pos _ 50 (by omega), hhead]
      rfl
    · exact (collectUrl_foldl_nodup hrefs [certUrl]
        (List.nodup_singleton certUrl)).sublist (List.take_sublist 50 _)
    · obtain ⟨ex, he, hs⟩ := collectUrl_foldl_sublist hrefs [certUrl]
      have h1 : (hrefs.foldl collectUrl [certUrl]).Sublist
          (certUrl :: hrefs.map expandHref) := by
        rw [he]
        exact hs.cons₂ certUrl
      exact (List.take_sublist 50 _).trans h1
  cases fetched with
  | none =>
    have hnone : getCertificationPages certUrl none = [certUrl] := rfl
    exact ⟨by rw [hnone]; simp, by rw [hnone]; rfl,
      by rw [hnone]; exact List.nodup_singleton certUrl, rfl, (hsome anchors).2.2.2⟩
  | some ls =>
    exact ⟨(hsome ls).1, (hsome ls).2.1, (hsome ls).2.2.1, rfl, (hsome anchors).2.2.2⟩

/-! ## C2: change-detection idempotence -/

theorem find?_append_of_none {α : Type} (p : α → Bool) (l1 l2 : List α)
    (h : l1.find? p = none) : (l1 ++ l2).find? p = l2.find? p := by
  rw [List.find?_append, h]
  rfl

theorem find?_map_patch (u : String) (newRec : StoredRecord) (hnew : newRec.url = u) :
    ∀ (store : List StoredRecord) (ex : StoredRecord),
    store.find? (fun r => r.url == u) = some ex →
    (store.map (fun r => if r.url == u then newRec else r)).find?
      (fun r => r.url == u) = some newRec := by
  intro store
  induction store with
  | nil => intro ex h; simp at h
  | cons a t ih =>
    intro ex h
    rw [List.find?_cons] at h
    rw [List.map_cons, List.find?_cons]
    cases hcase : (a.url == u) with
    | true => simp [hnew]
    | false =>
      simp only [if_neg (show ¬(false = true) by simp), hcase] at h ⊢
      exact ih ex h

/-- The skip branch of `saveContent`: an existing record with the same
fingerprint means no write. -/
theorem saveContent_skip (sid : String) (writeFails : Bool)
    (store : List StoredRecord) (result : ScrapeResult) (cat : String)
    (ex : StoredRecord)
    (hfind : store.find? (fun r => r.url == result.url) = some ex)
    (hhash : ex.content_hash = contentHash result) :
    saveContent (some sid) writeFails store result cat = (store, 0) := by
  unfold saveContent
  rw [hfind]
  simp [hhash]

/-- C2: when a stored record for the same URL exists and its stored
fingerprint equals the newly computed fingerprint, `saveContent` returns
without writing; consequently, starting from a store whose record for the
result's URL is absent or has a different fingerprint, running `saveContent`
twice on a result with unchanged content performs exactly one store write
(insert or update) on the first run and zero writes on the second. -/
theorem saveContent_idempotent (sid : String) (store : List StoredRecord)
    (result : ScrapeResult) (cat : String)
    (hstale : store.find? (fun r => r.url == result.url) = none ∨
      ∃ ex, store.find? (fun r => r.url == result.url) = some ex ∧
        ex.content_hash ≠ contentHash result) :
    (∀ (store2 : List StoredRecord) (ex : StoredRecord),
      store2.find? (fun r => r.url == result.url) = some ex →
      ex.content_hash = contentHash result →
      saveContent (some sid) false store2 result cat = (store2, 0)) ∧
    (saveContent (some sid) false store result cat).2 = 1 ∧
    (saveContent (some sid) false
      (saveContent (some sid) false store result cat).1 result cat).2 = 0 := by
  refine ⟨fun store2 ex hf hh => saveContent_skip sid false store2 result cat ex hf hh,
    ?_, ?_⟩
  · rcases hstale with hnone | ⟨ex, hfind, hhash⟩
    · unfold saveContent
      rw [hnone]
      rfl
    · unfold saveContent
      rw [hfind]
      simp [hhash]
  · rcases hstale with hnone | ⟨ex, hfind, hhash⟩
    · have h1 : (saveContent (some sid) false store result cat).1
          = store ++ [contentRow sid result] := by
        unfold saveContent
        rw [hnone]
        rfl
      rw [h1]
      have hf2 : (store ++ [contentRow sid result]).find?
          (fun r => r.url == result.url) = some (contentRow sid result) := by
        rw [find?_append_of_none _ store _ hnone]
        simp [List.find?_cons, contentRow]
      rw [saveContent_skip sid false _ result cat (contentRow sid result) hf2 rfl]
    · have h1 : (saveContent (some sid) false store result cat).1
          = store.map (fun r => if r.url == result.url then contentRow sid result else r) := by
        unfold saveContent
        rw [hfind]
        simp [hhash]
      rw [h1]
      have hf2 := find?_map_patch result.url (contentRow sid result) rfl store ex hfind
      rw [saveContent_skip sid false _ result cat (contentRow sid result) hf2 rfl]

theorem saveContent_idempotent_witness :
    (saveContent (some "src-1") false []
      { success := true, url := "https://www.freecodecamp.org/learn/a", title := "A",
        content := "hello world", markdown := none, codeSnippets := [], wordCount := 2,
        characterCount := 11, keywords := [], topics := [], error := none } "cat").2 = 1 ∧
    (saveContent (some "src-1") false
      (saveContent (some "src-1") false []
        { success := true, url := "https://www.freecodecamp.org/learn/a", title := "A",
          content := "hello world", markdown := none, codeSnippets := [], wordCount := 2,
          characterCount := 11, keywords := [], topics := [], error := none } "cat").1
      { success := true, url := "https://www.freecodecamp.org/learn/a", title := "A",
        content := "hello world", markdown := none, codeSnippets := [], wordCount := 2,
        characterCount := 11, keywords := [], topics := [], error := none } "cat").2 = 0 :=
  ⟨(saveContent_idempotent "src-1" []
      { success := true, url := "https://www.freecodecamp.org/learn/a", title := "A",
        content := "hello world", markdown := none, codeSnippets := [], wordCount := 2,
        characterCount := 11, keywords := [], topics := [], error := none } "cat"
      (Or.inl rfl)).2.1,
   (saveContent_idempotent "src-1" []
      { success := true, url := "https://www.freecodecamp.org/learn/a", title := "A",
        content := "hello world", markdown := none, codeSnippets := [], wordCount := 2,
        characterCount := 11, keywords := [], topics := [], error := none } "cat"
      (Or.inl rfl)).2.2⟩

/-! ## Batch scheduler lemmas -/

/-- Closed form of the job update emitted after the (k+1)-st item (0-based
index k), starting from counters `s` and `f`. -/
def updateAt (total s f : Nat) (items : List (ScrapeResult × Bool)) (k : Nat) :
    JobUpdate :=
  { urls_processed := s + f + k + 1,
    urls_failed := f + (items.take (k + 1)).countP (fun i => !i.1.success),
    progress_percentage := (((s + f + k + 1 : Nat) : ℚ) / ((total : Nat) : ℚ)) * 100,
    items_scraped := s + (items.take (k + 1)).countP (fun i => i.1.success) }

theorem castProg_congr (total a b : Nat) (h : a = b) :
    ((a : ℚ) / ((total : Nat) : ℚ)) * 100 = ((b : ℚ) / ((total : Nat) : ℚ)) * 100 := by
  rw [h]

theorem updateAt_shift (total s f : Nat) (result : ScrapeResult) (wf : Bool)
    (rest : List (ScrapeResult × Bool)) (k : Nat) :
    updateAt total (if result.success then s + 1 else s)
      (if result.success then f else f + 1) rest k
      = updateAt total s f ((result, wf) :: rest) (k + 1) := by
  have hcntF : (((result, wf) :: rest).take (k + 1 + 1)).countP (fun i => !i.1.success)
      = (if result.success then 0 else 1)
        + (rest.take (k + 1)).countP (fun i => !i.1.success) := by
    rw [List.take_succ_cons, List.countP_cons]
    cases result.success <;> simp <;> omega
  have hcntS : (((result, wf) :: rest).take (k + 1 + 1)).countP (fun i => i.1.success)
      = (if result.success then 1 else 0)
        + (rest.take (k + 1)).countP (fun i => i.1.success) := by
    rw [List.take_succ_cons, List.countP_cons]
    cases result.success <;> simp <;> omega
  unfold updateAt
  simp only [JobUpdate.mk.injEq]
  refine ⟨?_, ?_, ?_, ?_⟩
  · cases result.success <;> simp <;> omega
  · rw [hcntF]
    cases result.success <;> simp <;> omega
  · refine castProg_congr total _ _ ?_
    cases result.success <;> simp <;> omega
  · rw [hcntS]
    cases result.success <;> simp <;> omega

theorem runItems_updates :
    ∀ (items : List (ScrapeResult × Bool)) (sourceId : Option String)
      (cat : String) (total s f : Nat) (store : List StoredRecord),
    (runItems sourceId cat total s f store items).1
      = (List.range items.length).map (updateAt total s f items) := by
  intro items
  induction items with
  | nil => intro sourceId cat total s f store; rfl
  | cons it rest ih =>
    intro sourceId cat total s f store
    obtain ⟨result, wf⟩ := it
    rw [List.length_cons, List.range_succ_eq_map, List.map_cons, List.map_map]
    show JobUpdate.mk _ _ _ _ :: (runItems sourceId cat total
        (if result.success then s + 1 else s) (if result.success then f else f + 1)
        (if result.success then (saveContent sourceId wf store result cat).1 else store)
        rest).1 = _
    rw [ih]
    congr 1
    · unfold updateAt
      simp only [JobUpdate.mk.injEq]
      refine ⟨?_, ?_, ?_, ?_⟩
      · cases result.success <;> simp <;> omega
      · rw [List.take_succ_cons, List.take_zero, List.countP_cons, List.countP_nil]
        cases result.success <;> simp <;> omega
      · refine castProg_congr total _ _ ?_
        cases result.success <;> simp <;> omega
      · rw [List.take_succ_cons, List.take_zero, List.countP_cons, List.countP_nil]
        cases result.success <;> simp <;> omega
    · refine List.map_congr_left ?_
      intro k _
      exact updateAt_shift total s f result wf rest k

theorem runItems_counts :
    ∀ (items : List (ScrapeResult × Bool)) (sourceId : Option String)
      (cat : String) (total s f : Nat) (store : List StoredRecord),
    (runItems sourceId cat total s f store items).2.2.1
        = s + items.countP (fun i => i.1.success) ∧
    (runItems sourceId cat total s f store items).2.2.2
        = f + items.countP (fun i => !i.1.success) ∧
    (runItems sourceId cat total s f store items).1.length = items.length := by
  intro items
  induction items with
  | nil => intro sourceId cat total s f store; exact ⟨rfl, rfl, rfl⟩
  | cons it rest ih =>
    intro sourceId cat total s f store
    obtain ⟨result, wf⟩ := it
    obtain ⟨ih1, ih2, ih3⟩ := ih sourceId cat total
      (if result.success then s + 1 else s) (if result.success then f else f + 1)
      (if result.success then (saveContent sourceId wf store result cat).1 else store)
    refine ⟨?_, ?_, ?_⟩
    · show (runItems sourceId cat total (if result.success then s + 1 else s)
        (if result.success then f else f + 1) _ rest).2.2.1 = _
      rw [ih1, List.countP_cons]
      cases result.success <;> simp <;> omega
    · show (runItems sourceId cat total (if result.success then s + 1 else s)
        (if result.success then f else f + 1) _ rest).2.2.2 = _
      rw [ih2, List.countP_cons]
      cases result.success <;> simp <;> omega
    · show ((runItems sourceId cat total (if result.success then s + 1 else s)
        (if result.success then f else f + 1) _ rest).1.length) + 1 = _
      rw [ih3, List.length_cons]

theorem countP_add_countP_not {α : Type} (p : α → Bool) (l : List α) :
    l.countP p + l.countP (fun a => !p a) = l.length := by
  induction l with
  | nil => rfl
  | cons a t ih =>
    rw [List.countP_cons, List.countP_cons, List.length_cons]
    cases hpa : p a <;> simp [hpa] <;> omega

/-! ## C8: the failure-counting asymmetry -/

/-- C8: inside `scrapeCertification`, a fetch/parse failure increments the
failed counter by exactly one and the run continues over the remaining items
(the final counters are the count of failed and successful scrape results,
and one job update is emitted per item); a storage write failure inside
`saveContent` is swallowed — `saveContent` returns normally with no write —
does not touch the failed counter, and the item is still counted a success:
the counters depend only on each result's `success` flag, never on the
injected storage outcome. -/
theorem failure_counting_asymmetry (sourceId : Option String) (cat : String)
    (items : List (ScrapeResult × Bool)) (store : List StoredRecord) :
    (scrapeCertification sourceId cat items store).2.2.success
        = items.countP (fun i => i.1.success) ∧
    (scrapeCertification sourceId cat items store).2.2.failed
        = items.countP (fun i => !i.1.success) ∧
    (scrapeCertification sourceId cat items store).1.length = items.length ∧
    (∀ (sid : String) (store2 : List StoredRecord) (result : ScrapeResult)
      (c : String), saveContent (some sid) true store2 result c = (store2, 0)) := by
  obtain ⟨h1, h2, h3⟩ := runItems_counts items sourceId cat items.length 0 0 store
  refine ⟨?_, ?_, h3, ?_⟩
  · show (runItems sourceId cat items.length 0 0 store items).2.2.1 = _
    rw [h1]
    omega
  · show (runItems sourceId cat items.length 0 0 store items).2.2.2 = _
    rw [h2]
    omega
  · intro sid store2 result c
    unfold saveContent
    cases hfind : store2.find? (fun r => r.url == result.url) with
    | none => simp
    | some ex => by_cases hh : ex.content_hash = contentHash result <;> simp [hh]

/-! ## C10: the summary partitions the total -/

/-- C10: for every run of `scrapeCertification` that completes, the summary
satisfies success + failed = total where total is the number of discovered
URLs — every discovered URL is counted exactly once as a success or failure —
and the final persisted `urls_processed` equals total. -/
theorem summary_partitions_total (sourceId : Option String) (cat : String)
    (items : List (ScrapeResult × Bool)) (store : List StoredRecord)
    (hne : items ≠ []) :
    (scrapeCertification sourceId cat items store).2.2.success
      + (scrapeCertification sourceId cat items store).2.2.failed
      = (scrapeCertification sourceId cat items store).2.2.total ∧
    (scrapeCertification sourceId cat items store).2.2.total = items.length ∧
    ∃ u, (scrapeCertification sourceId cat items store).1.getLast? = some u ∧
      u.urls_processed = items.length := by
  have hn : 0 < items.length := List.length_pos.mpr hne
  refine ⟨?_, rfl, ?_⟩
  · obtain ⟨h1, h2, _⟩ := runItems_counts items sourceId cat items.length 0 0 store
    show (runItems sourceId cat items.length 0 0 store items).2.2.1
      + (runItems sourceId cat items.length 0 0 store items).2.2.2 = items.length
    rw [h1, h2]
    have hc := countP_add_countP_not (fun i : ScrapeResult × Bool => i.1.success) items
    omega
  · have hups : (scrapeCertification sourceId cat items store).1
        = (List.range items.length).map (updateAt items.length 0 0 items) :=
      runItems_updates items sourceId cat items.length 0 0 store
    refine ⟨updateAt items.length 0 0 items (items.length - 1), ?_, ?_⟩
    · rw [hups, List.getLast?_eq_getElem?, List.length_map, List.length_range,
        List.getElem?_map, List.getElem?_range (by omega)]
      rfl
    · show 0 + 0 + (items.length - 1) + 1 = items.length
      omega

theorem summary_partitions_total_witness :
    (scrapeCertification (some "src-1") "c"
      [({ success := true, url := "u1", title := "", content := "a", markdown := none,
          codeSnippets := [], wordCount := 1, characterCount := 1, keywords := [],
          topics := [], error := none }, false),
       ({ success := false, url := "u2", title := "", content := "", markdown := none,
          codeSnippets := [], wordCount := 0, characterCount := 0, keywords := [],
          topics := [], error := some "boom" }, false)] []).2.2.success
      + (scrapeCertification (some "src-1") "c"
      [({ success := true, url := "u1", title := "", content := "a", markdown := none,
          codeSnippets := [], wordCount := 1, characterCount := 1, keywords := [],
          topics := [], error := none }, false),
       ({ success := false, url := "u2", title := "", content := "", markdown := none,
          codeSnippets := [], wordCount := 0, characterCount := 0, keywords := [],
          topics := [], error := some "boom" }, false)] []).2.2.failed
      = (scrapeCertification (some "src-1") "c"
      [({ success := true, url := "u1", title := "", content := "a", markdown := none,
          codeSnippets := [], wordCount := 1, characterCount := 1, keywords := [],
          topics := [], error := none }, false),
       ({ success := false, url := "u2", title := "", content := "", markdown := none,
          codeSnippets := [], wordCount := 0, characterCount := 0, keywords := [],
          topics := [], error := some "boom" }, false)] []).2.2.total :=
  (summary_partitions_total (some "src-1") "c"
      [({ success := true, url := "u1", title := "", content := "a", markdown := none,
          codeSnippets := [], wordCount := 1, characterCount := 1, keywords := [],
          topics := [], error := none }, false),
       ({ success := false, url := "u2", title := "", content := "", markdown := none,
          codeSnippets := [], wordCount := 0, characterCount := 0, keywords := [],
          topics := [], error := some "boom" }, false)] []
      (List.cons_ne_nil _ _)).1

/-! ## C4: job progress bookkeeping -/

/-- C4: during `scrapeCertification` over n discovered URLs the job record is
updated once per item (n updates in all); the update persisted after
processing k+1 items has `urls_processed` = k+1 and `progress_percentage`
exactly 100·(k+1)/n; the persisted counters `urls_processed`, `urls_failed`,
`progress_percentage` and `items_scraped` are monotonically non-decreasing
across the run; and for a run in which every item succeeds the
`progress_percentage` reaches exactly 100 at the last update. -/
theorem progress_tracking (sourceId : Option String) (cat : String)
    (items : List (ScrapeResult × Bool)) (store : List StoredRecord) :
    (scrapeCertification sourceId cat items store).1.length = items.length ∧
    (∀ k : Nat, k < items.length →
      ∃ u, (scrapeCertification sourceId cat items store).1[k]? = some u ∧
        u.urls_processed = k + 1 ∧
        u.progress_percentage
          = 100 * ((k + 1 : Nat) : ℚ) / ((items.length : Nat) : ℚ)) ∧
    List.Chain' (fun u1 u2 : JobUpdate =>
      u1.urls_processed ≤ u2.urls_processed ∧ u1.urls_failed ≤ u2.urls_failed ∧
      u1.progress_percentage ≤ u2.progress_percentage ∧
      u1.items_scraped ≤ u2.items_scraped)
      (scrapeCertification sourceId cat items store).1 ∧
    ((∀ i ∈ items, i.1.success = true) → items ≠ [] →
      ∃ u, (scrapeCertification sourceId cat items store).1.getLast? = some u ∧
        u.progress_percentage = 100) := by
  have hups : (scrapeCertification sourceId cat items store).1
      = (List.range items.length).map (updateAt items.length 0 0 items) :=
    runItems_updates items sourceId cat items.length 0 0 store
  have htake : ∀ i : Nat, items.take (i + 1) = (items.take (i + 1 + 1)).take (i + 1) := by
    intro i
    rw [List.take_take, Nat.min_eq_left (by omega)]
  refine ⟨?_, ?_, ?_, ?_⟩
  · rw [hups, List.length_map, List.length_range]
  · intro k hk
    rw [hups, List.getElem?_map, List.getElem?_range hk]
    refine ⟨updateAt items.length 0 0 items k, rfl, by show 0 + 0 + k + 1 = k + 1; omega, ?_⟩
    show (((0 + 0 + k + 1 : Nat) : ℚ) / ((items.length : Nat) : ℚ)) * 100 = _
    push_cast
    ring
  · rw [hups]
    rw [List.chain'_iff_get]
    intro i hi
    rw [List.length_map, List.length_range] at hi
    have hget : ∀ (j : Nat) (hj : j < items.length),
        ((List.range items.length).map (updateAt items.length 0 0 items)).get
          ⟨j, by rw [List.length_map, List.length_range]; exact hj⟩
          = updateAt items.length 0 0 items j := by
      intro j hj
      rw [List.get_eq_getElem, List.getElem_map, List.getElem_range]
    rw [hget i (by omega), hget (i + 1) (by omega)]
    have hn : (0 : ℚ) < ((items.length : Nat) : ℚ) := by
      have : 0 < items.length := by omega
      exact_mod_cast this
    refine ⟨by show 0 + 0 + i + 1 ≤ 0 + 0 + (i + 1) + 1; omega, ?_, ?_, ?_⟩
    · show 0 + (items.take (i + 1)).countP (fun x => !x.1.success)
        ≤ 0 + (items.take (i + 1 + 1)).countP (fun x => !x.1.success)
      have hsub : (items.take (i + 1)).Sublist (items.take (i + 1 + 1)) := by
        rw [htake i]
        exact List.take_sublist _ _
      have := hsub.countP_le (fun x => !x.1.success)
      omega
    · show (((0 + 0 + i + 1 : Nat) : ℚ) / ((items.length : Nat) : ℚ)) * 100
        ≤ (((0 + 0 + (i + 1) + 1 : Nat) : ℚ) / ((items.length : Nat) : ℚ)) * 100
      have hle : ((0 + 0 + i + 1 : Nat) : ℚ) ≤ ((0 + 0 + (i + 1) + 1 : Nat) : ℚ) :=
        Nat.cast_le.mpr (by omega)
      have hdiv := (div_le_div_iff_of_pos_right hn).mpr hle
      exact mul_le_mul_of_nonneg_right hdiv (by norm_num)
    · show 0 + (items.take (i + 1)).countP (fun x => x.1.success)
        ≤ 0 + (items.take (i + 1 + 1)).countP (fun x => x.1.success)
      have hsub : (items.take (i + 1)).Sublist (items.take (i + 1 + 1)) := by
        rw [htake i]
        exact List.take_sublist _ _
      have := hsub.countP_le (fun x => x.1.success)
      omega
  · intro _ hne
    have hn : 0 < items.length := List.length_pos.mpr hne
    refine ⟨updateAt items.length 0 0 items (items.length - 1), ?_, ?_⟩
    · rw [hups, List.getLast?_eq_getElem?, List.length_map, List.length_range,
        List.getElem?_map, List.getElem?_range (by omega)]
      rfl
    · show (((0 + 0 + (items.length - 1) + 1 : Nat) : ℚ)
        / ((items.length : Nat) : ℚ)) * 100 = 100
      rw [castProg_congr items.length _ items.length (by omega)]
      rw [div_self (by exact_mod_cast Nat.pos_iff_ne_zero.mp hn), one_mul]

theorem progress_tracking_witness :
    ∃ u, (scrapeCertification (some "src-1") "c"
      [({ success := true, url := "u1", title := "", content := "a", markdown := none,
          codeSnippets := [], wordCount := 1, characterCount := 1, keywords := [],
          topics := [], error := none }, false),
       ({ success := true, url := "u2", title := "", content := "b", markdown := none,
          codeSnippets := [], wordCount := 1, characterCount := 1, keywords := [],
          topics := [], error := none }, false)] []).1.getLast? = some u ∧
      u.progress_percentage = 100 :=
  (progress_tracking (some "src-1") "c"
      [({ success := true, url := "u1", title := "", content := "a", markdown := none,
          codeSnippets := [], wordCount := 1, characterCount := 1, keywords := [],
          topics := [], error := none }, false),
       ({ success := true, url := "u2", title := "", content := "b", markdown := none,
          codeSnippets := [], wordCount := 1, characterCount := 1, keywords := [],
          topics := [], error := none }, false)] []).2.2.2
    (by decide) (List.cons_ne_nil _ _)

/-! ## C6: keyword extraction (corrected) -/

/-- The keys of the frequency record in insertion order: the first occurrence
of each token; used to characterize `freqMap`. -/
def firstOccur (ws : List String) : List String :=
  ws.foldl (fun acc w => if w ∈ acc then acc else acc ++ [w]) []

/-- Modelled from the spec (claim C6): the same top-10 computation but with
the frequency record enumerated in plain insertion order (first-occurrence
order), as the claim asserts — without the array-index-key reordering that
`Object.entries` actually performs. -/
def keywordsFirstOccurSpec (content : String) : List String :=
  ((sortStable countDescLe (freqMap (keywordTokens content))).take 10).map Prod.fst

theorem firstOccur_foldl_mem : ∀ (ws acc : List String) (x : String),
    (x ∈ ws.foldl (fun acc w => if w ∈ acc then acc else acc ++ [w]) acc) ↔
      (x ∈ acc ∨ x ∈ ws) := by
  intro ws
  induction ws with
  | nil => intro acc x; simp
  | cons w t ih =>
    intro acc x
    rw [List.foldl_cons]
    by_cases hc : w ∈ acc
    · rw [if_pos hc, ih]
      constructor
      · rintro (h | h)
        · exact Or.inl h
        · exact Or.inr (List.mem_cons_of_mem w h)
      · rintro (h | h)
        · exact Or.inl h
        · rcases List.mem_cons.mp h with rfl | h2
          · exact Or.inl hc
          · exact Or.inr h2
    · rw [if_neg hc, ih]
      simp only [List.mem_append, List.mem_singleton, List.mem_cons]
      tauto

theorem firstOccur_mem (ws : List String) (x : String) :
    x ∈ firstOccur ws ↔ x ∈ ws := by
  unfold firstOccur
  rw [firstOccur_foldl_mem]
  simp

theorem freqMap_append_singleton (l : List String) (w : String) :
    freqMap (l ++ [w]) = bumpFreq (freqMap l) w := by
  unfold freqMap
  rw [List.foldl_append]
  rfl

theorem firstOccur_append_singleton (l : List String) (w : String) :
    firstOccur (l ++ [w])
      = if w ∈ firstOccur l then firstOccur l else firstOccur l ++ [w] := by
  unfold firstOccur
  rw [List.foldl_append]
  rfl

theorem freqMap_eq_firstOccur_count : ∀ ws : List String,
    freqMap ws = (firstOccur ws).map (fun w => (w, ws.count w)) := by
  intro ws
  induction ws using List.reverseRecOn with
  | nil => rfl
  | append_singleton l w ih =>
    rw [freqMap_append_singleton, ih, firstOccur_append_singleton]
    by_cases hw : w ∈ firstOccur l
    · rw [if_pos hw]
      unfold bumpFreq
      have hany : ((firstOccur l).map (fun x => (x, l.count x))).any
          (fun e => e.1 == w) = true := by
        rw [List.any_eq_true]
        exact ⟨(w, l.count w), List.mem_map.mpr ⟨w, hw, rfl⟩, by simp⟩
      rw [if_pos hany, List.map_map]
      refine List.map_congr_left ?_
      intro x _
      by_cases hxw : x = w
      · subst hxw
        simp [Function.comp, List.count_append, List.count_singleton]
      · have hbeq : (w == x) = false := beq_eq_false_iff_ne.mpr (Ne.symm hxw)
        simp [Function.comp, hxw, List.count_append, List.count_singleton, hbeq]
    · rw [if_neg hw]
      unfold bumpFreq
      have hany : ((firstOccur l).map (fun x => (x, l.count x))).any
          (fun e => e.1 == w) = false := by
        rw [List.any_eq_false]
        intro e he
        obtain ⟨x, hx, rfl⟩ := List.mem_map.mp he
        simp only [beq_iff_eq]
        intro hxw
        exact hw (hxw ▸ hx)
      rw [if_neg (by simp [hany])]
      have hwl : w ∉ l := fun h => hw ((firstOccur_mem l w).mpr h)
      have hc0 : l.count w = 0 := List.count_eq_zero.mpr hwl
      rw [List.map_append, List.map_singleton]
      have h1 : (firstOccur l).map (fun x => (x, (l ++ [w]).count x))
          = (firstOccur l).map (fun x => (x, l.count x)) := by
        refine List.map_congr_left ?_
        intro x hx
        have hxw : x ≠ w := fun h => hw (h ▸ hx)
        have hbeq : (w == x) = false := beq_eq_false_iff_ne.mpr (Ne.symm hxw)
        simp [List.count_append, List.count_singleton, hbeq]
      rw [h1]
      have h2 : (l ++ [w]).count w = 1 := by
        simp [List.count_append, List.count_singleton, hc0]
      rw [h2]

theorem mem_freqMap_eq (ws : List String) (e : String × Nat)
    (he : e ∈ freqMap ws) : e.1 ∈ ws ∧ e.2 = ws.count e.1 := by
  rw [freqMap_eq_firstOccur_count] at he
  obtain ⟨x, hx, rfl⟩ := List.mem_map.mp he
  exact ⟨(firstOccur_mem ws x).mp hx, rfl⟩

theorem insertSorted_perm {α : Type} (le : α → α → Bool) (x : α) :
    ∀ l : List α, (insertSorted le x l).Perm (x :: l) := by
  intro l
  induction l with
  | nil => exact List.Perm.refl _
  | cons y ys ih =>
    unfold insertSorted
    by_cases h : le x y = true
    · rw [if_pos h]
    · rw [if_neg h]
      exact (ih.cons y).trans (List.Perm.swap x y ys)

theorem sortStable_perm {α : Type} (le : α → α → Bool) :
    ∀ l : List α, (sortStable le l).Perm l := by
  intro l
  induction l with
  | nil => exact List.Perm.refl _
  | cons x t ih =>
    show (insertSorted le x (sortStable le t)).Perm (x :: t)
    exact (insertSorted_perm le x _).trans (ih.cons x)

theorem insertSorted_pairwise {α : Type} (le : α → α → Bool)
    (htot : ∀ a b, le a b = false → le b a = true)
    (htrans : ∀ a b c, le a b = true → le b c = true → le a c = true)
    (x : α) : ∀ l : List α, l.Pairwise (fun a b => le a b = true) →
    (insertSorted le x l).Pairwise (fun a b => le a b = true) := by
  intro l
  induction l with
  | nil => intro _; exact List.pairwise_singleton _ x
  | cons y ys ih =>
    intro hp
    rw [List.pairwise_cons] at hp
    obtain ⟨hy, hys⟩ := hp
    unfold insertSorted
    by_cases h : le x y = true
    · rw [if_pos h, List.pairwise_cons]
      refine ⟨?_, List.pairwise_cons.mpr ⟨hy, hys⟩⟩
      intro z hz
      rcases List.mem_cons.mp hz with rfl | hz2
      · exact h
      · exact htrans x y z h (hy z hz2)
    · rw [if_neg h, List.pairwise_cons]
      have hfalse : le x y = false := by
        revert h
        cases le x y <;> simp
      refine ⟨?_, ih hys⟩
      intro z hz
      have hz2 := (insertSorted_perm le x ys).mem_iff.mp hz
      rcases List.mem_cons.mp hz2 with heq | hz3
      · subst heq
        exact htot z y hfalse
      · exact hy z hz3

theorem sortStable_pairwise {α : Type} (le : α → α → Bool)
    (htot : ∀ a b, le a b = false → le b a = true)
    (htrans : ∀ a b c, le a b = true → le b c = true → le a c = true) :
    ∀ l : List α, (sortStable le l).Pairwise (fun a b => le a b = true) := by
  intro l
  induction l with
  | nil => exact List.Pairwise.nil
  | cons x t ih => exact insertSorted_pairwise le htot htrans x _ ih

theorem jsEntries_perm (m : List (String × Nat)) : (jsEntries m).Perm m := by
  unfold jsEntries
  have h1 := sortStable_perm indexAscLe (m.filter (fun e => isArrayIndexKey e.1))
  exact (h1.append_right _).trans (List.filter_append_perm _ m)

/-- C6 counterexample: on content `"abcd 1234"` both tokens occur once, a tie;
first-occurrence order would return `["abcd", "1234"]`, but `Object.entries`
enumerates the array-index key `"1234"` before the string key `"abcd"`, so the
code returns `["1234", "abcd"]`. -/
theorem extractKeywords_tiebreak_counterexample :
    keywordsFirstOccurSpec "abcd 1234" = ["abcd", "1234"] ∧
    extractKeywords "abcd 1234" = ["1234", "abcd"] ∧
    extractKeywords "abcd 1234" ≠ keywordsFirstOccurSpec "abcd 1234" :=
  ⟨by decide, by decide, by decide⟩

/-- C6 (amended): `extractKeywords` lower-cases the content, tokenizes it on
non-word-character runs, discards tokens shorter than 4 characters, counts
token frequencies, and returns the top 10 tokens ordered by descending
frequency; equal-frequency ties follow the frequency record's enumeration
order, which is first-occurrence order except that tokens that are canonical
array-index digit strings are enumerated before all other tokens, in
ascending numeric order (ECMAScript own-property order) — not plain
first-occurrence order. -/
theorem extractKeywords_spec (content : String) :
    extractKeywords content
      = ((sortStable countDescLe (jsEntries
          ((firstOccur (keywordTokens content)).map
            (fun w => (w, (keywordTokens content).count w))))).take 10).map Prod.fst ∧
    (extractKeywords content).length ≤ 10 ∧
    (∀ w ∈ extractKeywords content, w ∈ keywordTokens content ∧ 3 < w.length) ∧
    (extractKeywords content).Pairwise
      (fun w1 w2 =>
        (keywordTokens content).count w2 ≤ (keywordTokens content).count w1) := by
  have hmem : ∀ e : String × Nat,
      e ∈ (sortStable countDescLe (jsEntries (freqMap (keywordTokens content)))).take 10 →
      e.1 ∈ keywordTokens content ∧ e.2 = (keywordTokens content).count e.1 := by
    intro e he
    have h1 : e ∈ sortStable countDescLe (jsEntries (freqMap (keywordTokens content))) :=
      (List.take_sublist 10 _).subset he
    have h2 : e ∈ jsEntries (freqMap (keywordTokens content)) :=
      (sortStable_perm countDescLe _).mem_iff.mp h1
    have h3 : e ∈ freqMap (keywordTokens content) := (jsEntries_perm _).mem_iff.mp h2
    exact mem_freqMap_eq _ e h3
  refine ⟨?_, ?_, ?_, ?_⟩
  · unfold extractKeywords
    rw [freqMap_eq_firstOccur_count]
  · unfold extractKeywords
    rw [List.length_map, List.length_take]
    omega
  · intro w hw
    unfold extractKeywords at hw
    obtain ⟨e, he, rfl⟩ := List.mem_map.mp hw
    obtain ⟨hmem1, _⟩ := hmem e he
    refine ⟨hmem1, ?_⟩
    have hcopy := hmem1
    unfold keywordTokens at hcopy
    have h2 := (List.mem_filter.mp hcopy).2
    simpa using h2
  · have htot : ∀ a b : String × Nat,
        countDescLe a b = false → countDescLe b a = true := by
      intro a b h
      simp only [countDescLe, decide_eq_false_iff_not] at h
      simp only [countDescLe, decide_eq_true_eq]
      omega
    have htrans : ∀ a b c : String × Nat, countDescLe a b = true →
        countDescLe b c = true → countDescLe a c = true := by
      intro a b c h1 h2
      simp only [countDescLe, decide_eq_true_eq] at h1 h2 ⊢
      omega
    have hp1 : ((sortStable countDescLe
        (jsEntries (freqMap (keywordTokens content)))).take 10).Pairwise
        (fun a b : String × Nat => countDescLe a b = true) :=
      List.Pairwise.sublist (List.take_sublist 10 _)
        (sortStable_pairwise countDescLe htot htrans _)
    have hp2 : ((sortStable countDescLe
        (jsEntries (freqMap (keywordTokens content)))).take 10).Pairwise
        (fun a b : String × Nat =>
          (keywordTokens content).count b.1 ≤ (keywordTokens content).count a.1) := by
      refine List.Pairwise.imp_of_mem ?_ hp1
      intro a b ha hb hab
      obtain ⟨_, ha2⟩ := hmem a ha
      obtain ⟨_, hb2⟩ := hmem b hb
      simp only [countDescLe, decide_eq_true_eq] at hab
      omega
    unfold extractKeywords
    exact List.pairwise_map.mpr hp2

theorem extractKeywords_spec_witness :
    "1234" ∈ keywordTokens "abcd 1234" ∧ 3 < ("1234" : String).length :=
  (extractKeywords_spec "abcd 1234").2.2.1 "1234" (by decide)

/-! ## C9: topics (corrected) -/

/-- Modelled from the spec (claim C9): locate the path portion of an absolute
URL — everything from the first `'/'` after the `"://"` scheme marker. -/
def dropThroughSchemeMarker : List Char → List Char
  | [] => []
  | c :: cs =>
    if ("://".data).isPrefixOf (c :: cs) then (c :: cs).drop 3
    else dropThroughSchemeMarker cs

/-- Modelled from the spec (claim C9): "the URL's path segments with the fixed
navigational segment 'learn' (and empty segments) filtered out" — the path
portion of the URL split on `'/'`, empty segments and `"learn"` removed. -/
def pathSegmentsSpec (url : String) : List String :=
  (splitSlash ⟨(dropThroughSchemeMarker url.data).dropWhile (fun c => c != '/')⟩).filter
    (fun p => p != "" && p != "learn")

/-- Build a URL string from slash-separated parts; used to state the amended
claim over structured absolute URLs. -/
def mkUrl (parts : List String) : String :=
  ⟨List.intercalate ['/'] (parts.map String.data)⟩

theorem splitSlash_mkUrl (parts : List String) (h : ∀ p ∈ parts, '/' ∉ p.data)
    (hne : parts ≠ []) : splitSlash (mkUrl parts) = parts := by
  unfold splitSlash mkUrl
  have hx : ∀ l ∈ parts.map String.data, '/' ∉ l := by
    intro l hl
    obtain ⟨p, hp, rfl⟩ := List.mem_map.mp hl
    exact h p hp
  have hne2 : parts.map String.data ≠ [] := by simpa using hne
  have hd : (⟨List.intercalate ['/'] (parts.map String.data)⟩ : String).data
      = List.intercalate ['/'] (parts.map String.data) := rfl
  rw [hd, List.splitOn_intercalate (parts.map String.data) '/' hx hne2, List.map_map]
  exact (List.map_congr_left fun p _ => rfl).trans (List.map_id parts)

/-- C9 counterexample: the code splits the whole URL string, so the scheme and
the host appear as leading topics — the topics field does not equal the URL's
path segments (with learn/empty filtered), which would be just
`["responsive-web-design"]` here. -/
theorem topics_not_path_segments_counterexample :
    topicsOf "https://www.freecodecamp.org/learn/responsive-web-design/"
      = ["https:", "www.freecodecamp.org", "responsive-web-design"] ∧
    pathSegmentsSpec "https://www.freecodecamp.org/learn/responsive-web-design/"
      = ["responsive-web-design"] ∧
    topicsOf "https://www.freecodecamp.org/learn/responsive-web-design/"
      ≠ pathSegmentsSpec "https://www.freecodecamp.org/learn/responsive-web-design/" :=
  ⟨by decide, by decide, by decide⟩

/-- C9 (amended): for every absolute URL `scheme://host/segments`, the topics
field equals all slash-separated segments of the full URL string — the scheme
(with its trailing colon) and the host as leading elements, followed by the
path segments — with empty segments and the fixed navigational segment
`"learn"` filtered out; the scheme and host parts are kept, so topics are not
only path segments. -/
theorem topicsOf_absolute_url (scheme host : String) (segs : List String)
    (hs : '/' ∉ scheme.data) (hh : '/' ∉ host.data)
    (hsegs : ∀ s ∈ segs, '/' ∉ s.data)
    (hhost1 : host ≠ "") (hhost2 : host ≠ "learn") :
    topicsOf (mkUrl ([scheme ++ ":", "", host] ++ segs))
      = (scheme ++ ":") :: host :: segs.filter (fun p => p != "" && p != "learn") := by
  have hcolon : (scheme ++ ":").data = scheme.data ++ [':'] := by
    rw [String.data_append]
  have hparts : ∀ p ∈ [scheme ++ ":", "", host] ++ segs, '/' ∉ p.data := by
    intro p hp
    rcases List.mem_append.mp hp with h3 | hseg
    · simp only [List.mem_cons, List.mem_singleton] at h3
      rcases h3 with rfl | rfl | rfl | h0
      · rw [hcolon]
        intro hmem
        rcases List.mem_append.mp hmem with hin | hin
        · exact hs hin
        · rw [List.mem_singleton] at hin
          exact absurd hin (by decide)
      · simp
      · exact hh
      · simp at h0
    · exact hsegs p hseg
  have hne1 : scheme ++ ":" ≠ "" := by
    intro heq
    have := congrArg String.data heq
    rw [hcolon] at this
    simp at this
  have hne2 : scheme ++ ":" ≠ "learn" := by
    intro heq
    have hdata := congrArg String.data heq
    rw [hcolon] at hdata
    have hmem : ':' ∈ scheme.data ++ [':'] := List.mem_append_right _ (by simp)
    rw [hdata] at hmem
    exact absurd hmem (by decide)
  unfold topicsOf
  rw [splitSlash_mkUrl _ hparts (by simp)]
  rw [show ([scheme ++ ":", "", host] ++ segs)
      = (scheme ++ ":") :: "" :: host :: segs from rfl]
  rw [List.filter_cons_of_pos (by simp [hne1, hne2]),
    List.filter_cons_of_neg (by simp),
    List.filter_cons_of_pos (by simp [hhost1, hhost2])]

theorem topicsOf_absolute_url_witness :
    topicsOf (mkUrl (["https" ++ ":", "", "www.freecodecamp.org"]
        ++ ["learn", "responsive-web-design", ""]))
      = ("https" ++ ":") :: "www.freecodecamp.org" ::
        ["learn", "responsive-web-design", ""].filter
          (fun p => p != "" && p != "learn") :=
  topicsOf_absolute_url "https" "www.freecodecamp.org"
    ["learn", "responsive-web-design", ""]
    (by decide) (by decide) (by decide) (by decide) (by decide)
